import Mathlib

/-!
Shallow embedding of the query facade (`dist/database.js`), the analytics
routines (`dist/analytics.d.ts`), and the enhanced analytics layer of the
ibex35-mcp-server repository, together with theorems settling the claims
about them.  JavaScript numbers are modelled as rationals, absent object
fields as `Option`, thrown errors as `Except.error`.
-/

/-- A board director as embedded in a company record. -/
structure Director where
  name : String
  position : String
  deriving DecidableEq

/-- A company record as returned by the remote companies endpoint.  Fields
that the source reads but that may be absent on the JSON object are
`Option`-valued. -/
structure Company where
  id : String
  symbol : String
  name : String
  ticker : String
  sector : Option String
  market_cap : Option ℚ
  price_to_earnings : Option ℚ
  pe_ratio : Option ℚ
  directors : Option (List Director)
  deriving DecidableEq

/-- One entry of a historical price series; only `close` is read by the code. -/
structure PriceEntry where
  close : ℚ
  deriving DecidableEq

/-- JavaScript truthiness of an optional string: `undefined` and `""` are falsy. -/
def jsStr (o : Option String) : Option String :=
  match o with
  | none => none
  | some s => if s = "" then none else some s

/-- JavaScript truthiness of an optional number: `undefined` and `0` are falsy. -/
def jsNum (o : Option ℚ) : Option ℚ :=
  match o with
  | none => none
  | some x => if x = 0 then none else some x

/-- JavaScript `String.prototype.includes`, on character lists: scan every
suffix and test whether the needle is a prefix of it. -/
def listIncludes (needle : List Char) : List Char → Bool
  | [] => needle.isPrefixOf ([] : List Char)
  | c :: rest => needle.isPrefixOf (c :: rest) || listIncludes needle rest

/-- Model of `hay.includes(needle)` from JavaScript. -/
def strIncludes (hay needle : String) : Bool :=
  listIncludes needle.toList hay.toList

/-- Character-wise `toLowerCase`, agreeing with JavaScript on ASCII input. -/
def jsToLower (s : String) : String :=
  String.mk (s.toList.map Char.toLower)

/-- Character-wise `toUpperCase`, agreeing with JavaScript on ASCII input. -/
def jsToUpper (s : String) : String :=
  String.mk (s.toList.map Char.toUpper)

/-- Model of `getCompaniesBySector` from `dist/database.js` (lines 49-52):
`company.sector && company.sector.toLowerCase().includes(sector.toLowerCase())`
— keep the companies whose `sector` is truthy (present and non-empty) and,
lower-cased, contains the lower-cased query as a substring. -/
def getCompaniesBySector (companies : List Company) (sector : String) : List Company :=
  companies.filter (fun c =>
    match jsStr c.sector with
    | none => false
    | some sec => strIncludes (jsToLower sec) (jsToLower sector))

/-- Matching predicate following the words of claim C6 as stated: the sector
field of the company, compared case-insensitively, contains the query as a
substring; a company whose sector is missing never matches.  An empty-string
sector is treated as present here, which the code does not do. -/
def sectorContainsSpec (c : Company) (s : String) : Bool :=
  match c.sector with
  | none => false
  | some sec => decide ((jsToLower s).toList <:+: (jsToLower sec).toList)

/-- Spec-side matching predicate for the amended claim C6: the sector field
must be truthy — present and non-empty — and, compared case-insensitively,
contain the query as a substring. -/
def sectorMatchSpec (c : Company) (s : String) : Bool :=
  match jsStr c.sector with
  | none => false
  | some sec => decide ((jsToLower s).toList <:+: (jsToLower sec).toList)

/-- Model of `getCompanyBySymbol` from `dist/database.js` (lines 45-48): linear scan
for an exact symbol match, `null` (here `none`) when absent. -/
def getCompanyBySymbol (companies : List Company) (symbol : String) : Option Company :=
  companies.find? (fun c => c.symbol == symbol)

/-- Model of `getHistoricalPrices` from `dist/database.js` (lines 165-176): resolve the
company id against the company list; on failure return the empty list, on
success call the historical-prices endpoint (abstracted as `fetch`) with the
symbol of the company and the day count. -/
def getHistoricalPrices (companies : List Company)
    (fetch : String → Nat → List PriceEntry) (companyId : String) (days : Nat) :
    List PriceEntry :=
  match companies.find? (fun c => c.id == companyId) with
  | none => []
  | some c => fetch c.symbol days

/-- An ESG score record; the backend never produces one. -/
structure ESGScore where
  environmental : ℚ
  social : ℚ
  governance : ℚ
  deriving DecidableEq

/-- Model of `getESGScores` from `dist/database.js` (lines 288-290): the worker API has
no ESG data, so the result is always the empty list. -/
def getESGScores (companyId : String) : List ESGScore :=
  []

/-- The exact message thrown by `executeCustomQuery`. -/
def customQueryUnsupportedMessage : String :=
  "Custom SQL queries are not supported via the Cloudflare Worker API. Please use the specific endpoints available."

/-- Model of `executeCustomQuery` from `dist/database.js` (lines 292-294): always
throws; no SQL is ever executed. -/
def executeCustomQuery (sql : String) (params : List String) :
    Except String (List (List String)) :=
  Except.error customQueryUnsupportedMessage

/-- JavaScript `Math.round`: round half up. -/
def jsRound (x : ℚ) : ℤ :=
  ⌊x + 1 / 2⌋

/-- Result object of `calculateMarketConcentration`; the zero-total early
return carries no `top_3_market_share` field, hence the `Option`. -/
structure ConcentrationResult where
  hhi_index : ℤ
  concentration_level : String
  top_3_market_share : Option ℚ
  deriving DecidableEq

/-- The Herfindahl-Hirschman index fold from `calculateMarketConcentration`
(`dist/analytics.d.ts` lines 146-167), over the list of per-sector total
market caps: sum of squared market shares scaled by 10000. -/
def hhiOf (caps : List ℚ) : ℚ :=
  caps.foldl (fun s x => s + x / caps.sum * (x / caps.sum) * 10000) 0

/-- Model of `calculateMarketConcentration` from `dist/analytics.d.ts` (lines 146-167). -/
def calculateMarketConcentration (caps : List ℚ) : ConcentrationResult :=
  if caps.sum = 0 then
    { hhi_index := 0, concentration_level := "unknown", top_3_market_share := none }
  else
    { hhi_index := jsRound (hhiOf caps)
      concentration_level :=
        if hhiOf caps > 2500 then "highly_concentrated"
        else if hhiOf caps > 1500 then "moderately_concentrated"
        else "competitive"
      top_3_market_share := some ((((caps.take 3).map (fun x => x / caps.sum)).sum) * 100) }

/-- The needle is an infix of the haystack exactly when the suffix scan of
JavaScript `includes` succeeds. -/
theorem listIncludes_iff (needle hay : List Char) :
    listIncludes needle hay = true ↔ needle <:+: hay := by
  induction hay with
  | nil =>
    simp [listIncludes, List.infix_nil]
  | cons c rest ih =>
    simp [listIncludes, ih, List.infix_cons_iff]

/-- A company whose `sector` is the empty string — truthy-falsy in
JavaScript, yet containing the empty query as a substring. -/
def emptySectorCompany : Company :=
  { id := "9", symbol := "EMP", name := "Empty Sector", ticker := "EMP"
    sector := some "", market_cap := none, price_to_earnings := none
    pe_ratio := none, directors := none }

/-- Counterexample to claim C6 as stated: with the empty query, a company
whose sector is the empty string satisfies the case-insensitive-containment
predicate of the claim (its sector is not missing, and "" contains ""), yet
`getCompaniesBySector` excludes it, because `company.sector &&` treats the
empty string as falsy — so the output is not exactly the containment
sublist. -/
theorem C6_counterexample :
    getCompaniesBySector [emptySectorCompany] "" = [] ∧
    [emptySectorCompany].filter (fun c => sectorContainsSpec c "") =
      [emptySectorCompany] := by
  constructor
  · decide
  · decide

/-- Claim C6 (amended): for every company list and query string,
`getCompaniesBySector` returns exactly the sublist of companies whose sector
is truthy — present and non-empty — and, compared case-insensitively,
contains the query as a substring; companies whose sector is missing or
empty are excluded. -/
theorem C6_getCompaniesBySector_filter (companies : List Company) (s : String) :
    getCompaniesBySector companies s = companies.filter (fun c => sectorMatchSpec c s) := by
  unfold getCompaniesBySector
  apply List.filter_congr
  intro c _
  unfold sectorMatchSpec
  cases h : jsStr c.sector with
  | none => rfl
  | some sec =>
    unfold strIncludes
    rw [Bool.eq_iff_iff]
    simp only [decide_eq_true_eq]
    exact listIncludes_iff (jsToLower s).toList (jsToLower sec).toList

/-- Claim C7: failed lookups are represented as `none` / empty-list results:
a symbol with no exact match makes `getCompanyBySymbol` return `none`, and a
company id that resolves to no company makes `getHistoricalPrices` return the
empty list (the fetch is never consulted). -/
theorem C7_resolution_failure :
    (∀ (companies : List Company) (symbol : String),
        (∀ c ∈ companies, c.symbol ≠ symbol) →
        getCompanyBySymbol companies symbol = none) ∧
    (∀ (companies : List Company) (fetch : String → Nat → List PriceEntry)
        (companyId : String) (days : Nat),
        (∀ c ∈ companies, c.id ≠ companyId) →
        getHistoricalPrices companies fetch companyId days = []) := by
  constructor
  · intro companies symbol h
    unfold getCompanyBySymbol
    rw [List.find?_eq_none]
    intro c hc
    simpa using h c hc
  · intro companies fetch companyId days h
    unfold getHistoricalPrices
    have hnone : companies.find? (fun c => c.id == companyId) = none := by
      rw [List.find?_eq_none]
      intro c hc
      simpa using h c hc
    rw [hnone]

/-- A concrete company used to instantiate hypothesis-bearing theorems. -/
def sampleCompany : Company :=
  { id := "1", symbol := "SAN", name := "Banco Santander", ticker := "SAN"
    sector := some "Banking", market_cap := none, price_to_earnings := none
    pe_ratio := none, directors := none }

/-- Witness for claim C7 at a concrete input: the symbol `"XXX"` and the id
`"zzz"` match nothing in a one-company list. -/
theorem C7_witness :
    getCompanyBySymbol [sampleCompany] "XXX" = none ∧
    getHistoricalPrices [sampleCompany] (fun _ _ => []) "zzz" 7 = [] := by
  constructor
  · exact C7_resolution_failure.1 [sampleCompany] "XXX" (by decide)
  · exact C7_resolution_failure.2 [sampleCompany] (fun _ _ => []) "zzz" 7 (by decide)

/-- Claim C8: `executeCustomQuery` fails with the explicit unsupported-operation
error on every input (the SQL is never executed), while `getESGScores` returns
the empty list for every company id. -/
theorem C8_unsupported_operations :
    (∀ (sql : String) (params : List String),
        executeCustomQuery sql params = Except.error customQueryUnsupportedMessage) ∧
    (∀ companyId : String, getESGScores companyId = []) :=
  ⟨fun _ _ => rfl, fun _ => rfl⟩

/-- Claim C4: the concentration classifier uses strict threshold comparisons:
an HHI of exactly 2500 yields `moderately_concentrated`, exactly 1500 yields
`competitive`, above 2500 yields `highly_concentrated`, in (1500, 2500] yields
`moderately_concentrated`, and at or below 1500 yields `competitive`. -/
theorem C4_concentration_thresholds (caps : List ℚ) (hsum : caps.sum ≠ 0) :
    (hhiOf caps = 2500 →
      (calculateMarketConcentration caps).concentration_level = "moderately_concentrated") ∧
    (hhiOf caps = 1500 →
      (calculateMarketConcentration caps).concentration_level = "competitive") ∧
    (2500 < hhiOf caps →
      (calculateMarketConcentration caps).concentration_level = "highly_concentrated") ∧
    (1500 < hhiOf caps → hhiOf caps ≤ 2500 →
      (calculateMarketConcentration caps).concentration_level = "moderately_concentrated") ∧
    (hhiOf caps ≤ 1500 →
      (calculateMarketConcentration caps).concentration_level = "competitive") := by
  unfold calculateMarketConcentration
  rw [if_neg hsum]
  refine ⟨?_, ?_, ?_, ?_, ?_⟩
  · intro h
    simp only [h]
    norm_num
  · intro h
    simp only [h]
    norm_num
  · intro h
    simp only [gt_iff_lt, if_pos h]
  · intro h1 h2
    simp only [gt_iff_lt, if_neg (not_lt.mpr h2), if_pos h1]
  · intro h
    have h2 : ¬(2500 : ℚ) < hhiOf caps := not_lt.mpr (le_trans h (by norm_num))
    simp only [gt_iff_lt, if_neg h2, if_neg (not_lt.mpr h)]

/-- Witness for claim C4 at a concrete input: four equal sectors give an HHI
of exactly 2500, classified `moderately_concentrated`. -/
theorem C4_witness :
    (calculateMarketConcentration [25, 25, 25, 25]).concentration_level =
      "moderately_concentrated" := by
  have hsum : ([25, 25, 25, 25] : List ℚ).sum ≠ 0 := by
    norm_num [List.sum_cons, List.sum_nil]
  have hh : hhiOf [25, 25, 25, 25] = 2500 := by
    norm_num [hhiOf, List.sum_cons, List.sum_nil, List.foldl]
  exact (C4_concentration_thresholds [25, 25, 25, 25] hsum).1 hh

/-- The "may precede" relation of the JavaScript descending sorts
`(a, b) => key(b) - key(a)`: `a` may come before `b` when `key b ≤ key a`. -/
def descRel {α β : Type} [LinearOrder β] (f : α → β) : α → α → Prop :=
  fun a b => f b ≤ f a

instance descRelDecidable {α β : Type} [LinearOrder β] (f : α → β) :
    DecidableRel (descRel f) :=
  fun a b => inferInstanceAs (Decidable (f b ≤ f a))

instance descRelTotal {α β : Type} [LinearOrder β] (f : α → β) :
    IsTotal α (descRel f) :=
  ⟨fun a b => le_total (f b) (f a)⟩

instance descRelTrans {α β : Type} [LinearOrder β] (f : α → β) :
    IsTrans α (descRel f) :=
  ⟨fun _ _ _ h1 h2 => le_trans h2 h1⟩

/-- Stable descending sort by a key, modelling `list.sort((a, b) => key(b) - key(a))`. -/
def sortByDesc {α β : Type} [LinearOrder β] (f : α → β) (l : List α) : List α :=
  List.insertionSort (descRel f) l

theorem sortByDesc_sorted {α β : Type} [LinearOrder β] (f : α → β) (l : List α) :
    (sortByDesc f l).Pairwise (fun a b => f b ≤ f a) :=
  List.sorted_insertionSort (descRel f) l

theorem mem_sortByDesc {α β : Type} [LinearOrder β] (f : α → β) (l : List α) (a : α) :
    a ∈ sortByDesc f l ↔ a ∈ l :=
  (List.perm_insertionSort (descRel f) l).mem_iff

/-- Insert an element into the insertion-ordered group list of a JavaScript
`Map` of arrays: append to the first entry with the given key, or add a new
entry at the end. -/
def insertGrouped {α : Type} (k : String) (a : α) :
    List (String × List α) → List (String × List α)
  | [] => [(k, [a])]
  | (k2, l) :: rest =>
    if k = k2 then (k2, l ++ [a]) :: rest else (k2, l) :: insertGrouped k a rest

/-- One step of the grouping forEach loop; elements whose key is falsy are
skipped. -/
def groupStep {α : Type} (key : α → Option String)
    (gs : List (String × List α)) (x : α) : List (String × List α) :=
  match key x with
  | none => gs
  | some k => insertGrouped k x gs

/-- Group a list by key, preserving first-occurrence key order — the result
of filling a JavaScript `Map` of arrays in a forEach loop and iterating its
entries. -/
def groupByKey {α : Type} (key : α → Option String) (xs : List α) :
    List (String × List α) :=
  xs.foldl (groupStep key) []

/-- Membership test used to relate a group to the original list. -/
def keyPred {α : Type} (key : α → Option String) (k : String) : α → Bool :=
  fun x => decide (key x = some k)

/-- Invariant tying a part-built group list to the processed prefix:
keys are distinct, each group is the filter of the processed prefix by its
key, and a key is present exactly when some processed element bears it. -/
def GroupInv {α : Type} (key : α → Option String) (processed : List α)
    (gs : List (String × List α)) : Prop :=
  (gs.map Prod.fst).Nodup ∧
  (∀ k l, (k, l) ∈ gs → l = processed.filter (keyPred key k)) ∧
  (∀ k, k ∈ gs.map Prod.fst ↔ ∃ x ∈ processed, key x = some k)

theorem insertGrouped_keys {α : Type} (k : String) (a : α)
    (gs : List (String × List α)) :
    (insertGrouped k a gs).map Prod.fst =
      if k ∈ gs.map Prod.fst then gs.map Prod.fst else gs.map Prod.fst ++ [k] := by
  induction gs with
  | nil => simp [insertGrouped]
  | cons p rest ih =>
    obtain ⟨k2, l⟩ := p
    by_cases hk : k = k2
    · subst hk
      simp [insertGrouped]
    · by_cases hmem : k ∈ rest.map Prod.fst <;>
        simp [insertGrouped, hk, ih, hmem, List.mem_cons]

theorem insertGrouped_not_mem {α : Type} (k : String) (a : α)
    (gs : List (String × List α)) (h : k ∉ gs.map Prod.fst) :
    insertGrouped k a gs = gs ++ [(k, [a])] := by
  induction gs with
  | nil => simp [insertGrouped]
  | cons p rest ih =>
    obtain ⟨k2, l⟩ := p
    simp only [List.map_cons, List.mem_cons, not_or] at h
    simp [insertGrouped, h.1, ih h.2]

theorem insertGrouped_mem_cases {α : Type} {k0 : String} {x : α}
    {gs : List (String × List α)} (hnd : (gs.map Prod.fst).Nodup)
    {k : String} {l : List α} (h : (k, l) ∈ insertGrouped k0 x gs) :
    (k ≠ k0 ∧ (k, l) ∈ gs) ∨
    (k = k0 ∧ ∃ l0, (k0, l0) ∈ gs ∧ l = l0 ++ [x]) ∨
    (k = k0 ∧ k0 ∉ gs.map Prod.fst ∧ l = [x]) := by
  induction gs with
  | nil =>
    simp only [insertGrouped, List.mem_singleton, Prod.mk.injEq] at h
    right; right
    exact ⟨h.1, by simp, h.2⟩
  | cons p rest ih =>
    obtain ⟨k2, l2⟩ := p
    simp only [List.map_cons, List.nodup_cons] at hnd
    obtain ⟨hk2notin, hndrest⟩ := hnd
    by_cases he : k0 = k2
    · subst he
      rw [insertGrouped, if_pos rfl] at h
      rcases List.mem_cons.mp h with heq | hmem
      · obtain ⟨rfl, rfl⟩ := Prod.mk.injEq .. ▸ heq
        right; left
        exact ⟨rfl, l2, List.mem_cons_self _ _, rfl⟩
      · have hne : k ≠ k0 := by
          rintro rfl
          exact hk2notin (List.mem_map.mpr ⟨(k, l), hmem, rfl⟩)
        exact Or.inl ⟨hne, List.mem_cons_of_mem _ hmem⟩
    · rw [insertGrouped, if_neg he] at h
      rcases List.mem_cons.mp h with heq | hmem
      · obtain ⟨rfl, rfl⟩ := Prod.mk.injEq .. ▸ heq
        exact Or.inl ⟨fun hh => he hh.symm, List.mem_cons_self _ _⟩
      · rcases ih hndrest hmem with ⟨hne, hm⟩ | ⟨rfl, l0, hl0, rfl⟩ | ⟨rfl, hnm, rfl⟩
        · exact Or.inl ⟨hne, List.mem_cons_of_mem _ hm⟩
        · exact Or.inr (Or.inl ⟨rfl, l0, List.mem_cons_of_mem _ hl0, rfl⟩)
        · right; right
          refine ⟨rfl, ?_, rfl⟩
          simp [List.mem_cons, he, hnm]

theorem groupStep_inv {α : Type} (key : α → Option String) (processed : List α)
    (gs : List (String × List α)) (x : α) (h : GroupInv key processed gs) :
    GroupInv key (processed ++ [x]) (groupStep key gs x) := by
  obtain ⟨hnd, hsound, hcomp⟩ := h
  unfold groupStep
  cases hx : key x with
  | none =>
    refine ⟨hnd, ?_, ?_⟩
    · intro k l hkl
      rw [hsound k l hkl, List.filter_append]
      simp [List.filter, keyPred, hx]
    · intro k
      rw [hcomp k]
      constructor
      · rintro ⟨y, hy, hky⟩
        exact ⟨y, List.mem_append_left _ hy, hky⟩
      · rintro ⟨y, hy, hky⟩
        rcases List.mem_append.mp hy with hy2 | hy2
        · exact ⟨y, hy2, hky⟩
        · rw [List.mem_singleton] at hy2
          subst hy2
          rw [hx] at hky
          exact absurd hky (by simp)
  | some k0 =>
    show GroupInv key (processed ++ [x]) (insertGrouped k0 x gs)
    by_cases hk0 : k0 ∈ gs.map Prod.fst
    · refine ⟨?_, ?_, ?_⟩
      · rw [insertGrouped_keys, if_pos hk0]
        exact hnd
      · intro k l hkl
        rcases insertGrouped_mem_cases hnd hkl with
          ⟨hne, hmem⟩ | ⟨rfl, l0, hl0, rfl⟩ | ⟨rfl, hnm, rfl⟩
        · rw [hsound k l hmem, List.filter_append]
          have : keyPred key k x = false := by
            simp [keyPred, hx]
            exact fun hh => hne hh.symm
          simp [List.filter, this]
        · rw [hsound k l0 hl0, List.filter_append]
          simp [List.filter, keyPred, hx]
        · exact absurd hk0 hnm
      · intro k
        rw [insertGrouped_keys, if_pos hk0, hcomp k]
        constructor
        · rintro ⟨y, hy, hky⟩
          exact ⟨y, List.mem_append_left _ hy, hky⟩
        · rintro ⟨y, hy, hky⟩
          rcases List.mem_append.mp hy with hy2 | hy2
          · exact ⟨y, hy2, hky⟩
          · rw [List.mem_singleton] at hy2
            subst hy2
            rw [hx] at hky
            obtain rfl : k0 = k := by simpa using hky
            exact (hcomp k0).mp hk0
    · rw [insertGrouped_not_mem k0 x gs hk0]
      refine ⟨?_, ?_, ?_⟩
      · rw [List.map_append]
        simp only [List.map_cons, List.map_nil]
        rw [List.nodup_append]
        refine ⟨hnd, List.nodup_singleton _, ?_⟩
        intro a ha hb
        rw [List.mem_singleton] at hb
        subst hb
        exact hk0 ha
      · intro k l hkl
        rcases List.mem_append.mp hkl with hmem | hmem
        · have hkkeys : k ∈ gs.map Prod.fst := List.mem_map.mpr ⟨(k, l), hmem, rfl⟩
          have hne : k ≠ k0 := by
            rintro rfl
            exact hk0 hkkeys
          rw [hsound k l hmem, List.filter_append]
          have : keyPred key k x = false := by
            simp [keyPred, hx]
            exact fun hh => hne hh.symm
          simp [List.filter, this]
        · rw [List.mem_singleton] at hmem
          obtain ⟨rfl, rfl⟩ := Prod.mk.injEq .. ▸ hmem
          have hnone : processed.filter (keyPred key k) = [] := by
            rw [List.filter_eq_nil_iff]
            intro y hy
            simp only [keyPred, decide_eq_true_eq]
            intro he
            exact hk0 ((hcomp k).mpr ⟨y, hy, he⟩)
          rw [List.filter_append, hnone]
          simp [List.filter, keyPred, hx]
      · intro k
        rw [List.map_append]
        simp only [List.map_cons, List.map_nil, List.mem_append, List.mem_singleton, hcomp k]
        constructor
        · rintro (⟨y, hy, hky⟩ | rfl)
          · exact ⟨y, Or.inl hy, hky⟩
          · exact ⟨x, Or.inr rfl, hx⟩
        · rintro ⟨y, hy | rfl, hky⟩
          · exact Or.inl ⟨y, hy, hky⟩
          · right
            rw [hx] at hky
            simpa using hky.symm

theorem foldl_groupStep_inv {α : Type} (key : α → Option String) :
    ∀ (xs processed : List α) (gs : List (String × List α)),
      GroupInv key processed gs →
      GroupInv key (processed ++ xs) (xs.foldl (groupStep key) gs) := by
  intro xs
  induction xs with
  | nil =>
    intro processed gs h
    simpa using h
  | cons x rest ih =>
    intro processed gs h
    have hstep := groupStep_inv key processed gs x h
    have := ih (processed ++ [x]) (groupStep key gs x) hstep
    simpa [List.append_assoc] using this

theorem groupByKey_inv {α : Type} (key : α → Option String) (xs : List α) :
    GroupInv key xs (groupByKey key xs) := by
  have h0 : GroupInv key [] ([] : List (String × List α)) := by
    refine ⟨by simp, by simp, by simp⟩
  simpa using foldl_groupStep_inv key xs [] [] h0

theorem groupByKey_sound {α : Type} (key : α → Option String) (xs : List α)
    {k : String} {l : List α} (h : (k, l) ∈ groupByKey key xs) :
    l = xs.filter (keyPred key k) :=
  (groupByKey_inv key xs).2.1 k l h

theorem foldl_groupStep_filter {α : Type} (key : α → Option String) :
    ∀ (xs : List α) (gs : List (String × List α)),
      xs.foldl (groupStep key) gs =
        (xs.filter (fun x => (key x).isSome)).foldl (groupStep key) gs := by
  intro xs
  induction xs with
  | nil => intro gs; rfl
  | cons x rest ih =>
    intro gs
    cases hx : key x with
    | none =>
      have hskip : groupStep key gs x = gs := by simp [groupStep, hx]
      simp [List.filter_cons, hx, hskip, ih]
    | some k =>
      simp [List.filter_cons, hx, groupStep, ih]

/-- Skipping key-less elements up front does not change the grouping. -/
theorem groupByKey_filter_isSome {α : Type} (key : α → Option String) (xs : List α) :
    groupByKey key xs = groupByKey key (xs.filter (fun x => (key x).isSome)) :=
  foldl_groupStep_filter key xs []

/-- A director tagged with its company during the flattening loop of
`getBoardInterlocks` (`dist/database.js` lines 74-86): `company_name` is the
field `company_name` holds the company `name`, `company_symbol` its `ticker`. -/
structure TaggedDirector where
  name : String
  position : String
  company_name : String
  company_symbol : String
  deriving DecidableEq

/-- An interlock record emitted by `getBoardInterlocks`. -/
structure Interlock where
  director_name : String
  companies : String
  board_count : ℕ
  positions : String
  deriving DecidableEq

/-- The `allDirectors` flattening from `getBoardInterlocks`: the embedded director list of every company, tagged with the company name and ticker; companies
without a `directors` array contribute nothing. -/
def allDirectorsOf : List Company → List TaggedDirector
  | [] => []
  | c :: rest =>
    (match c.directors with
     | some ds => ds.map (fun d =>
        { name := d.name, position := d.position
          company_name := c.name, company_symbol := c.ticker })
     | none => []) ++ allDirectorsOf rest

/-- The interlock record built for a director-name group
(`dist/database.js` lines 96-105). -/
def mkInterlock (nm : String) (ds : List TaggedDirector) : Interlock :=
  { director_name := nm
    companies := String.intercalate ", " (ds.map (fun d => d.company_name))
    board_count := ds.length
    positions := String.intercalate "; "
      (ds.map (fun d => d.company_name ++ " (" ++ d.position ++ ")")) }

/-- Model of `getBoardInterlocks` from `dist/database.js` (lines 72-107): flatten all
embedded directors, group them by name, emit a record for every group of
size > 1, and sort descending by `board_count`. -/
def getBoardInterlocks (companies : List Company) : List Interlock :=
  let groups := groupByKey (fun d : TaggedDirector => some d.name) (allDirectorsOf companies)
  let interlocks := groups.filterMap
    (fun g => if 1 < g.2.length then some (mkInterlock g.1 g.2) else none)
  sortByDesc Interlock.board_count interlocks

/-- Claim C1 (amended): every interlock emitted by `getBoardInterlocks` has
`board_count ≥ 2`, its `board_count` equals the number of director entries
bearing that name across all companies (occurrences counted with
multiplicity, not distinct companies), and the output is sorted
non-increasingly by `board_count`. -/
theorem C1_board_interlocks (companies : List Company) :
    (∀ i ∈ getBoardInterlocks companies,
        2 ≤ i.board_count ∧
        i.board_count =
          (allDirectorsOf companies).countP
            (fun d => decide (d.name = i.director_name))) ∧
    (getBoardInterlocks companies).Pairwise
      (fun a b => b.board_count ≤ a.board_count) := by
  constructor
  · intro i hi
    simp only [getBoardInterlocks] at hi
    rw [mem_sortByDesc, List.mem_filterMap] at hi
    obtain ⟨⟨k, l⟩, hmem, hf⟩ := hi
    by_cases h2 : 1 < l.length
    · rw [if_pos h2] at hf
      obtain rfl : mkInterlock k l = i := Option.some.inj hf
      have hl := groupByKey_sound (fun d : TaggedDirector => some d.name)
        (allDirectorsOf companies) hmem
      constructor
      · show 2 ≤ l.length
        omega
      · show l.length =
          (allDirectorsOf companies).countP (fun d => decide (d.name = k))
        rw [hl]
        have hfe : (allDirectorsOf companies).filter
            (keyPred (fun d : TaggedDirector => some d.name) k) =
            (allDirectorsOf companies).filter (fun d => decide (d.name = k)) := by
          apply List.filter_congr
          intro d _
          simp [keyPred]
        rw [hfe, List.countP_eq_length_filter]
    · rw [if_neg h2] at hf
      exact absurd hf (by simp)
  · simp only [getBoardInterlocks]
    exact sortByDesc_sorted _ _

/-- A single company whose board lists the same director name twice. -/
def duplicatedBoard : List Company :=
  [{ id := "1", symbol := "AAA", name := "A", ticker := "AAA", sector := none
     market_cap := none, price_to_earnings := none, pe_ratio := none
     directors := some [{ name := "X", position := "chair" },
                        { name := "X", position := "ceo" }] }]

/-- Counterexample to claim C1 as stated: with a single company whose board
lists the name "X" twice, `getBoardInterlocks` emits one record with
`board_count = 2`, while the number of distinct companies at which "X"
appears is 1 — so `board_count` is not the number of distinct companies. -/
theorem C1_counterexample :
    ((getBoardInterlocks duplicatedBoard).map
        (fun i => (i.director_name, i.board_count)) = [("X", 2)]) ∧
    duplicatedBoard.countP
      (fun c =>
        match c.directors with
        | some ds => ds.any (fun d => d.name == "X")
        | none => false) = 1 := by
  constructor
  · decide
  · decide

/-- Two companies sharing the director name "Y". -/
def interlockedBoards : List Company :=
  [{ id := "1", symbol := "AAA", name := "A", ticker := "AAA", sector := none
     market_cap := none, price_to_earnings := none, pe_ratio := none
     directors := some [{ name := "Y", position := "chair" }] },
   { id := "2", symbol := "BBB", name := "B", ticker := "BBB", sector := none
     market_cap := none, price_to_earnings := none, pe_ratio := none
     directors := some [{ name := "Y", position := "ceo" }] }]

/-- Witness for claim C1 at a concrete input: the record emitted for the
shared director "Y" of two boards satisfies the amended claim. -/
theorem C1_witness :
    2 ≤ (Interlock.mk "Y" "A, B" 2 "A (chair); B (ceo)").board_count ∧
    (Interlock.mk "Y" "A, B" 2 "A (chair); B (ceo)").board_count =
      (allDirectorsOf interlockedBoards).countP
        (fun d => decide (d.name =
          (Interlock.mk "Y" "A, B" 2 "A (chair); B (ceo)").director_name)) :=
  (C1_board_interlocks interlockedBoards).1 _ (by decide)

/-- A shareholder position record from the shareholder-positions endpoint;
all fields read by the code may be absent. -/
structure ShareholderPosition where
  shareholder_name : Option String
  name : Option String
  company_symbol : Option String
  ticker : Option String
  percentage : Option ℚ
  deriving DecidableEq

/-- An overlap record emitted by `getShareholderOverlap`. -/
structure Overlap where
  shareholder_name : String
  companies : String
  company_count : ℕ
  avg_percentage : ℚ
  deriving DecidableEq

/-- The grouping key of `getShareholderOverlap`
(`position.shareholder_name || position.name`, skipped when falsy). -/
def posName (p : ShareholderPosition) : Option String :=
  match jsStr p.shareholder_name with
  | some s => some s
  | none => jsStr p.name

/-- The per-position company value `position.company_symbol || position.ticker`,
as retained by `.filter(Boolean)`: present exactly when the JavaScript value
is truthy. -/
def posSymbol (p : ShareholderPosition) : Option String :=
  match jsStr p.company_symbol with
  | some s => some s
  | none => jsStr p.ticker

/-- The overlap record built for a shareholder-name group
(`dist/database.js` lines 150-160). -/
def mkOverlap (nm : String) (ps : List ShareholderPosition) : Overlap :=
  let comps := ps.filterMap posSymbol
  { shareholder_name := nm
    companies := String.intercalate "," comps
    company_count := comps.length
    avg_percentage := (ps.map (fun p => p.percentage.getD 0)).sum / (ps.length : ℚ) }

/-- Model of `getShareholderOverlap` from `dist/database.js` (lines 135-163): group all
positions by shareholder name (skipping positions with no usable name), emit
an overlap record for every group of size > 1, and sort descending by
`company_count`. -/
def getShareholderOverlap (positions : List ShareholderPosition) : List Overlap :=
  let groups := groupByKey posName positions
  let overlaps := groups.filterMap
    (fun g => if 1 < g.2.length then some (mkOverlap g.1 g.2) else none)
  sortByDesc Overlap.company_count overlaps

/-- The length of a `filterMap` is the number of elements sent to `some`. -/
theorem length_filterMap_eq_length_filter {α β : Type} (f : α → Option β)
    (l : List α) :
    (l.filterMap f).length = (l.filter (fun a => (f a).isSome)).length := by
  induction l with
  | nil => rfl
  | cons a t ih =>
    cases hf : f a <;> simp [List.filterMap_cons, List.filter_cons, hf, ih]

/-- Two positions held by the shareholder "N", neither carrying a usable
company symbol or ticker. -/
def noSymbolPositions : List ShareholderPosition :=
  [{ shareholder_name := some "N", name := none, company_symbol := none
     ticker := none, percentage := none },
   { shareholder_name := some "N", name := none, company_symbol := none
     ticker := none, percentage := none }]

/-- Claim C10: `getShareholderOverlap` skips positions with neither a usable
`shareholder_name` nor `name`; the name of every emitted record is borne by at
least two positions, and its `company_count` counts only the grouped
positions carrying a usable `company_symbol` or `ticker` — and for some
inputs an emitted record has `company_count` strictly below 2. -/
theorem C10_shareholder_overlap :
    (∀ ps : List ShareholderPosition,
        getShareholderOverlap ps =
          getShareholderOverlap (ps.filter (fun p => (posName p).isSome)) ∧
        ∀ o ∈ getShareholderOverlap ps,
          2 ≤ (ps.filter (fun p => decide (posName p = some o.shareholder_name))).length ∧
          o.company_count =
            ((ps.filter (fun p => decide (posName p = some o.shareholder_name))).filter
              (fun p => (posSymbol p).isSome)).length) ∧
    (∃ (ps : List ShareholderPosition) (o : Overlap),
        o ∈ getShareholderOverlap ps ∧ o.company_count < 2) := by
  constructor
  · intro ps
    constructor
    · show getShareholderOverlap ps = getShareholderOverlap _
      unfold getShareholderOverlap
      rw [groupByKey_filter_isSome]
    · intro o ho
      simp only [getShareholderOverlap] at ho
      rw [mem_sortByDesc, List.mem_filterMap] at ho
      obtain ⟨⟨k, l⟩, hmem, hf⟩ := ho
      by_cases h2 : 1 < l.length
      · rw [if_pos h2] at hf
        obtain rfl : mkOverlap k l = o := Option.some.inj hf
        have hl := groupByKey_sound posName ps hmem
        have hfe : ps.filter (keyPred posName k) =
            ps.filter (fun p => decide (posName p = some k)) := by
          apply List.filter_congr
          intro p _
          simp [keyPred]
        constructor
        · show 2 ≤ (ps.filter (fun p =>
            decide (posName p = some (mkOverlap k l).shareholder_name))).length
          have : (mkOverlap k l).shareholder_name = k := rfl
          rw [this, ← hfe, ← hl]
          omega
        · show (mkOverlap k l).company_count = _
          have hcc : (mkOverlap k l).company_count = (l.filterMap posSymbol).length := rfl
          have hnm : (mkOverlap k l).shareholder_name = k := rfl
          rw [hcc, hnm, ← hfe, ← hl, length_filterMap_eq_length_filter]
      · rw [if_neg h2] at hf
        exact absurd hf (by simp)
  · refine ⟨noSymbolPositions,
            { shareholder_name := "N", companies := "", company_count := 0,
              avg_percentage := 0 }, ?_, ?_⟩
    · show (⟨"N", "", 0, 0⟩ : Overlap) ∈ [mkOverlap "N" noSymbolPositions]
      simp only [List.mem_singleton, mkOverlap, Overlap.mk.injEq]
      refine ⟨trivial, by decide, by decide, ?_⟩
      norm_num [noSymbolPositions]
    · decide

/-- Two positions held by the shareholder "N", neither carrying a usable
company symbol. -/
def symbollessPositions : List ShareholderPosition :=
  [{ shareholder_name := some "N", name := none, company_symbol := none
     ticker := none, percentage := some 1 },
   { shareholder_name := some "N", name := none, company_symbol := some "AAA"
     ticker := none, percentage := some 3 }]

/-- Witness for claim C10 at a concrete input: the record emitted for "N"
groups two positions, of which exactly one carries a company symbol. -/
theorem C10_witness :
    2 ≤ (symbollessPositions.filter (fun p =>
        decide (posName p = some (Overlap.mk "N" "AAA" 1 2).shareholder_name))).length ∧
    (Overlap.mk "N" "AAA" 1 2).company_count =
      ((symbollessPositions.filter (fun p =>
          decide (posName p = some (Overlap.mk "N" "AAA" 1 2).shareholder_name))).filter
        (fun p => (posSymbol p).isSome)).length :=
  (C10_shareholder_overlap.1 symbollessPositions).2 _ (by
    show (Overlap.mk "N" "AAA" 1 2) ∈ [mkOverlap "N" symbollessPositions]
    simp only [List.mem_singleton, mkOverlap, Overlap.mk.injEq]
    refine ⟨trivial, by decide, by decide, ?_⟩
    norm_num [symbollessPositions])

/-- A performance record emitted by `getTopPerformers`. -/
structure Performance where
  symbol : String
  name : String
  sector : Option String
  current_price : ℚ
  period_change : ℚ
  deriving DecidableEq

/-- The per-company body of the `getTopPerformers` loop
(`dist/database.js` lines 183-195): with fewer than 2 price points the
company is skipped, otherwise the percent change between the most recent
(index 0) and oldest (last index) close is computed. -/
def performanceOf (c : Company) (hist : List PriceEntry) : Option Performance :=
  if 2 ≤ hist.length then
    some { symbol := c.symbol, name := c.name, sector := c.sector
           current_price := (hist.headD ⟨0⟩).close
           period_change :=
             ((hist.headD ⟨0⟩).close - (hist.getLastD ⟨0⟩).close) /
               (hist.getLastD ⟨0⟩).close * 100 }
  else none

/-- Model of `getTopPerformers` from `dist/database.js` (lines 177-205): iterate the
first 20 companies only, fetch the price history of each one (a failing fetch
skips the company), build performance records, sort descending by
`period_change` and truncate to `limit`. -/
def getTopPerformers (companies : List Company)
    (fetch : Company → Except Unit (List PriceEntry)) (limit : ℕ) : List Performance :=
  let performances := (companies.take 20).filterMap (fun c =>
    match fetch c with
    | Except.error _ => none
    | Except.ok hist => performanceOf c hist)
  (sortByDesc Performance.period_change performances).take limit

/-- Claim C3: `getTopPerformers` returns at most `limit` items sorted
non-increasingly by `period_change`; every item stems from one of the first
20 companies whose fetch succeeded with at least 2 price points, with
`period_change` computed from the first (most recent) and last (oldest)
close; and the result only depends on the fetches of the first
20 companies. -/
theorem C3_top_performers (companies : List Company)
    (fetch : Company → Except Unit (List PriceEntry)) (limit : ℕ) :
    (getTopPerformers companies fetch limit).length ≤ limit ∧
    (getTopPerformers companies fetch limit).Pairwise
      (fun a b => b.period_change ≤ a.period_change) ∧
    (∀ p ∈ getTopPerformers companies fetch limit,
        ∃ c ∈ companies.take 20, ∃ hist,
          fetch c = Except.ok hist ∧ 2 ≤ hist.length ∧
          p.symbol = c.symbol ∧
          p.period_change =
            ((hist.headD ⟨0⟩).close - (hist.getLastD ⟨0⟩).close) /
              (hist.getLastD ⟨0⟩).close * 100) ∧
    (∀ fetch2 : Company → Except Unit (List PriceEntry),
        (∀ c ∈ companies.take 20, fetch c = fetch2 c) →
        getTopPerformers companies fetch limit =
          getTopPerformers companies fetch2 limit) := by
  refine ⟨?_, ?_, ?_, ?_⟩
  · simp only [getTopPerformers]
    exact List.length_take_le _ _
  · simp only [getTopPerformers]
    exact (sortByDesc_sorted _ _).sublist (List.take_sublist _ _)
  · intro p hp
    simp only [getTopPerformers] at hp
    have hp2 := List.mem_of_mem_take hp
    rw [mem_sortByDesc, List.mem_filterMap] at hp2
    obtain ⟨c, hc, hfc⟩ := hp2
    refine ⟨c, hc, ?_⟩
    cases hf : fetch c with
    | error e =>
      simp only [hf] at hfc
      exact absurd hfc (by simp)
    | ok hist =>
      simp only [hf] at hfc
      refine ⟨hist, rfl, ?_⟩
      unfold performanceOf at hfc
      by_cases hlen : 2 ≤ hist.length
      · rw [if_pos hlen] at hfc
        obtain rfl := Option.some.inj hfc
        exact ⟨hlen, rfl, rfl⟩
      · rw [if_neg hlen] at hfc
        exact absurd hfc (by simp)
  · intro fetch2 hagree
    simp only [getTopPerformers]
    congr 1
    congr 1
    apply List.filterMap_congr
    intro c hc
    rw [hagree c hc]

/-- JavaScript `a || b` on optional numbers: `b` when `a` is falsy. -/
def jsOrNum (a b : Option ℚ) : Option ℚ :=
  match jsNum a with
  | some x => some x
  | none => b

/-- The `pe` variable of the scoring loop:
`company.price_to_earnings || company.pe_ratio`. -/
def peVar (c : Company) : Option ℚ :=
  jsOrNum c.price_to_earnings c.pe_ratio

/-- The raw opportunity score of one company (`scoreOpportunities` body,
`ENHANCED_FEATURES.md` lines 1185-1207): base 5.0, +1.0 for a truthy P/E
below 15, -0.5 for a truthy P/E above 25, +0.5 for a market cap above 10B,
-0.3 below 1B, +0.3 for a favoured sector. -/
def scoreOf (c : Company) : ℚ :=
  let base : ℚ := 5
  let s1 := if (match jsNum (peVar c) with
                | some p => decide (p < 15)
                | none => false) then base + 1 else base
  let s2 := if (match jsNum (peVar c) with
                | some p => decide (p > 25)
                | none => false) then s1 - 1 / 2 else s1
  let s3 := if (match c.market_cap with
                | some m => decide (m > 10000000000)
                | none => false) then s2 + 1 / 2 else s2
  let s4 := if (match c.market_cap with
                | some m => decide (m < 1000000000)
                | none => false) then s3 - 3 / 10 else s3
  if (match c.sector with
      | some sec => ["banking", "technology", "healthcare"].contains sec.toLower
      | none => false) then s4 + 3 / 10 else s4

/-- A scored screening opportunity. -/
structure ScoredOpportunity where
  company : Company
  symbol : String
  name : String
  sector : Option String
  score : ℚ
  market_cap : Option ℚ
  pe_value : Option ℚ
  deriving DecidableEq

/-- Model of `scoreOpportunities` from `ENHANCED_FEATURES.md` (lines 1185-1214): score
every company, clamp the score to [0, 10] with `Math.max(0, Math.min(10, s))`,
and sort descending by score. -/
def scoreOpportunities (companies : List Company) : List ScoredOpportunity :=
  sortByDesc ScoredOpportunity.score
    (companies.map (fun c =>
      { company := c, symbol := c.symbol, name := c.name, sector := c.sector
        score := max 0 (min 10 (scoreOf c))
        market_cap := c.market_cap, pe_value := peVar c }))

/-- Claim C9: every opportunity score produced by the screening step lies in
[0, 10], whatever P/E ratio, market cap, or sector the company has. -/
theorem C9_scores_clamped (companies : List Company) :
    ∀ o ∈ scoreOpportunities companies, 0 ≤ o.score ∧ o.score ≤ 10 := by
  intro o ho
  simp only [scoreOpportunities] at ho
  rw [mem_sortByDesc, List.mem_map] at ho
  obtain ⟨c, _, rfl⟩ := ho
  constructor
  · exact le_max_left 0 _
  · exact max_le (by norm_num) (min_le_left 10 _)

/-- Witness for claim C9 at a concrete input: the single record scored for
`sampleCompany` has its score inside [0, 10]. -/
theorem C9_witness :
    0 ≤ ({ company := sampleCompany, symbol := "SAN", name := "Banco Santander"
           sector := some "Banking", score := max 0 (min 10 (scoreOf sampleCompany))
           market_cap := none, pe_value := peVar sampleCompany } :
          ScoredOpportunity).score ∧
    ({ company := sampleCompany, symbol := "SAN", name := "Banco Santander"
       sector := some "Banking", score := max 0 (min 10 (scoreOf sampleCompany))
       market_cap := none, pe_value := peVar sampleCompany } :
          ScoredOpportunity).score ≤ 10 :=
  C9_scores_clamped [sampleCompany] _ (by exact List.mem_singleton_self _)

/-- A two-point price history used to instantiate claim C3. -/
def samplePrices : List PriceEntry :=
  [⟨110⟩, ⟨100⟩]

/-- Witness for claim C3 at a concrete input: the record produced for
`sampleCompany` from a two-point history stems from a successful fetch with
at least 2 points and carries the documented percent-change formula. -/
theorem C3_witness :
    ∃ c ∈ ([sampleCompany].take 20), ∃ hist,
      (fun _ : Company => (Except.ok samplePrices : Except Unit (List PriceEntry))) c =
          Except.ok hist ∧
      2 ≤ hist.length ∧
      (Performance.mk "SAN" "Banco Santander" (some "Banking")
          ((samplePrices.headD ⟨0⟩).close)
          (((samplePrices.headD ⟨0⟩).close - (samplePrices.getLastD ⟨0⟩).close) /
            (samplePrices.getLastD ⟨0⟩).close * 100)).symbol = c.symbol ∧
      (Performance.mk "SAN" "Banco Santander" (some "Banking")
          ((samplePrices.headD ⟨0⟩).close)
          (((samplePrices.headD ⟨0⟩).close - (samplePrices.getLastD ⟨0⟩).close) /
            (samplePrices.getLastD ⟨0⟩).close * 100)).period_change =
        ((hist.headD ⟨0⟩).close - (hist.getLastD ⟨0⟩).close) /
          (hist.getLastD ⟨0⟩).close * 100 :=
  (C3_top_performers [sampleCompany] (fun _ => Except.ok samplePrices) 5).2.2.1 _
    (by exact List.mem_singleton_self _)

theorem foldl_add_eq {α : Type} (f : α → ℚ) :
    ∀ (l : List α) (init : ℚ),
      l.foldl (fun s x => s + f x) init = init + (l.map f).sum := by
  intro l
  induction l with
  | nil => intro init; simp
  | cons a t ih =>
    intro init
    rw [List.foldl_cons, ih, List.map_cons, List.sum_cons]
    ring

theorem sum_map_mul_const {α : Type} (f : α → ℚ) (c : ℚ) :
    ∀ l : List α, (l.map (fun x => f x * c)).sum = (l.map f).sum * c := by
  intro l
  induction l with
  | nil => simp
  | cons a t ih =>
    simp only [List.map_cons, List.sum_cons, ih]
    ring

theorem sum_map_mul_left_eq (c : ℚ) :
    ∀ l : List ℚ, (l.map (fun x => c * x)).sum = c * l.sum := by
  intro l
  induction l with
  | nil => simp
  | cons a t ih =>
    simp only [List.map_cons, List.sum_cons, ih]
    ring

theorem sum_map_div_eq (c : ℚ) :
    ∀ l : List ℚ, (l.map (fun x => x / c)).sum = l.sum / c := by
  intro l
  induction l with
  | nil => simp
  | cons a t ih =>
    simp only [List.map_cons, List.sum_cons, ih]
    ring

theorem sum_sq_nonneg (l : List ℚ) : 0 ≤ (l.map (fun x => x ^ 2)).sum := by
  induction l with
  | nil => simp
  | cons a t ih =>
    simp only [List.map_cons, List.sum_cons]
    exact add_nonneg (sq_nonneg a) ih

theorem sq_sum_le_length_mul_sum_sq :
    ∀ l : List ℚ, l.sum ^ 2 ≤ (l.length : ℚ) * (l.map (fun x => x ^ 2)).sum := by
  intro l
  induction l with
  | nil => simp
  | cons a t ih =>
    cases t with
    | nil => simp
    | cons b t2 =>
      have hq := sum_sq_nonneg (b :: t2)
      simp only [List.map_cons, List.sum_cons, List.length_cons] at ih hq ⊢
      push_cast at ih ⊢
      set n : ℚ := (t2.length : ℚ) + 1 with hn
      have hn0 : 0 < n := by positivity
      have hn1 : 0 < n + 1 := by positivity
      set S : ℚ := b + t2.sum with hSdef
      set Q : ℚ := b ^ 2 + (List.map (fun x => x ^ 2) t2).sum with hQdef
      nlinarith [sq_nonneg (n * a - S), ih, hq, hn0, hn1]

theorem sum_sq_le_sq_sum (l : List ℚ) (h : ∀ x ∈ l, 0 ≤ x) :
    (l.map (fun x => x ^ 2)).sum ≤ l.sum ^ 2 := by
  induction l with
  | nil => simp
  | cons a t ih =>
    have ha : 0 ≤ a := h a (List.mem_cons_self a t)
    have ht : ∀ x ∈ t, 0 ≤ x := fun x hx => h x (List.mem_cons_of_mem a hx)
    have hS : 0 ≤ t.sum := List.sum_nonneg ht
    have hQ := ih ht
    simp only [List.map_cons, List.sum_cons]
    nlinarith [mul_nonneg ha hS]

/-- The HHI fold is 10000 times the sum of squared market shares. -/
theorem hhiOf_eq_sum (caps : List ℚ) :
    hhiOf caps = 10000 * (caps.map (fun x => (x / caps.sum) ^ 2)).sum := by
  unfold hhiOf
  rw [foldl_add_eq (fun x => x / caps.sum * (x / caps.sum) * 10000) caps 0, zero_add]
  rw [show (fun x => x / caps.sum * (x / caps.sum) * 10000) =
        fun x => (x / caps.sum) ^ 2 * 10000 by funext x; ring]
  rw [sum_map_mul_const (fun x => (x / caps.sum) ^ 2) 10000 caps]
  ring

/-- Claim C5: the HHI is invariant under scaling all sector market caps by
one positive constant, and with N sectors of positive caps it lies in
[10000/N, 10000]. -/
theorem C5_hhi_properties :
    (∀ (caps : List ℚ) (c : ℚ), 0 < c → 0 < caps.sum →
        hhiOf (caps.map (fun x => c * x)) = hhiOf caps) ∧
    (∀ caps : List ℚ, (∀ x ∈ caps, 0 < x) → caps ≠ [] →
        10000 / (caps.length : ℚ) ≤ hhiOf caps ∧ hhiOf caps ≤ 10000) := by
  constructor
  · intro caps c hc hsum
    have hmapsum : (caps.map (fun x => c * x)).sum = c * caps.sum :=
      sum_map_mul_left_eq c caps
    rw [hhiOf_eq_sum, hhiOf_eq_sum, hmapsum]
    congr 1
    rw [List.map_map]
    apply congrArg
    apply List.map_congr_left
    intro x _
    simp only [Function.comp]
    rw [mul_div_mul_left x caps.sum (ne_of_gt hc)]
  · intro caps hpos hne
    have hsum : 0 < caps.sum := List.sum_pos caps hpos hne
    have hshares : (caps.map (fun x => x / caps.sum)).sum = 1 := by
      rw [sum_map_div_eq]
      exact div_self (ne_of_gt hsum)
    have hlen : 0 < (caps.length : ℚ) := by
      have : 0 < caps.length := List.length_pos.mpr hne
      exact_mod_cast this
    have hBQ : ((caps.map (fun x => x / caps.sum)).map (fun q => q ^ 2)).sum =
        (caps.map (fun x => (x / caps.sum) ^ 2)).sum := by
      rw [List.map_map]
      rfl
    constructor
    · have hcs := sq_sum_le_length_mul_sum_sq (caps.map (fun x => x / caps.sum))
      rw [hshares, hBQ, List.length_map] at hcs
      rw [hhiOf_eq_sum, div_le_iff₀ hlen]
      nlinarith [hcs]
    · have hq0 : ∀ q ∈ caps.map (fun x => x / caps.sum), 0 ≤ q := by
        intro q hq
        obtain ⟨x, hx, rfl⟩ := List.mem_map.mp hq
        exact le_of_lt (div_pos (hpos x hx) hsum)
      have hub := sum_sq_le_sq_sum (caps.map (fun x => x / caps.sum)) hq0
      rw [hshares, hBQ] at hub
      rw [hhiOf_eq_sum]
      nlinarith [hub]

/-- Witness for claim C5 at a concrete input: two equal sectors, scaled by 2,
keep their HHI, and the HHI of two equal positive sectors lies in
[10000/2, 10000]. -/
theorem C5_witness :
    hhiOf (([1, 1] : List ℚ).map (fun x => 2 * x)) = hhiOf [1, 1] ∧
    10000 / ((([1, 1] : List ℚ).length : ℚ)) ≤ hhiOf [1, 1] ∧
    hhiOf ([1, 1] : List ℚ) ≤ 10000 := by
  refine ⟨?_, ?_⟩
  · exact C5_hhi_properties.1 [1, 1] 2 (by norm_num)
      (by norm_num [List.sum_cons, List.sum_nil])
  · exact C5_hhi_properties.2 [1, 1]
      (by
        intro x hx
        rcases List.mem_cons.mp hx with rfl | hx2
        · norm_num
        · rcases List.mem_cons.mp hx2 with rfl | hx3
          · norm_num
          · exact absurd hx3 (List.not_mem_nil x))
      (by simp)

/-- A JavaScript regex word character (`\w`): ASCII letter, digit or
underscore. -/
def isWordChar (c : Char) : Bool :=
  c.isAlphanum || c = '_'

/-- A literal alternative matches at the head of `s` with a trailing word
boundary: it is a prefix and the following character, if any, is not a word
character.  (All alternatives used below end in a word character, so the
trailing `\b` amounts to exactly this test.) -/
def litMatchAt (w s : List Char) : Bool :=
  w.isPrefixOf s &&
    (match s.drop w.length with
     | [] => true
     | c :: _ => !isWordChar c)

/-- Scan for the leftmost match of `\b(alt1|alt2|...)\b`: at every position
whose preceding character is not a word character (tracked in `prevIsWord`),
try the alternatives in order; return the matched literal.  All alternatives
start with a word character, so the leading `\b` amounts to this test. -/
def scanAlts (alts : List (List Char)) : Bool → List Char → Option (List Char)
  | _, [] => none
  | prevIsWord, c :: rest =>
    if prevIsWord then scanAlts alts (isWordChar c) rest
    else
      match alts.find? (fun w => litMatchAt w (c :: rest)) with
      | some w => some w
      | none => scanAlts alts (isWordChar c) rest

/-- Test for `\b(g1...)⟨\b⟩.*\b(g2...)\b`: find a `g1` match (with trailing
boundary when `g1Tail` is true, bare prefix otherwise) and then a `g2` match
anywhere in the remainder. -/
def scanTwoGroups (g1 g2 : List (List Char)) (g1Tail : Bool) : Bool → List Char → Bool
  | _, [] => false
  | prevIsWord, c :: rest =>
    ((!prevIsWord) &&
      (match g1.find? (fun w =>
          if g1Tail then litMatchAt w (c :: rest) else w.isPrefixOf (c :: rest)) with
       | some w => (scanAlts g2 true ((c :: rest).drop w.length)).isSome
       | none => false))
    || scanTwoGroups g1 g2 g1Tail (isWordChar c) rest

/-- Whether `\b(alt1|...)\b` matches anywhere in the string. -/
def testWordPattern (alts : List String) (s : String) : Bool :=
  (scanAlts (alts.map String.toList) false s.toList).isSome

/-- The text matched by the leftmost occurrence of `\b(alt1|...)\b`, i.e.
JavaScript `match[0]`. -/
def firstWordMatch (alts : List String) (s : String) : Option String :=
  (scanAlts (alts.map String.toList) false s.toList).map (fun w => String.mk w)

/-- Whether a two-group pattern `\b(g1)⟨\b⟩.*\b(g2)\b` matches. -/
def testTwoGroupPattern (g1 g2 : List String) (g1Tail : Bool) (s : String) : Bool :=
  scanTwoGroups (g1.map String.toList) (g2.map String.toList) g1Tail false s.toList

/-- The five fixed company-name patterns of the comparison branch
(`ENHANCED_FEATURES.md` lines 417-423), alternatives in source order. -/
def companyPatterns : List (List String) :=
  [["santander", "san.mc", "san"],
   ["bbva", "bbva.mc"],
   ["iberdrola", "ibe.mc", "ibe"],
   ["telefonica", "tef.mc", "tef"],
   ["inditex", "itx.mc", "itx"]]

/-- The company extraction loop of the comparison branch: for each pattern,
push the uppercased matched text. -/
def extractCompanies (lq : String) : List String :=
  companyPatterns.filterMap (fun alts => (firstWordMatch alts lq).map jsToUpper)

/-- The sector token extraction of the sector-performance branch, defaulting
to "energy". -/
def extractSector (lq : String) : String :=
  match firstWordMatch
      ["banking", "energy", "telecom", "textile", "steel", "aviation", "infrastructure"] lq with
  | some s => s
  | none => "energy"

/-- The classification produced by the ordered branch tests of
`analyzeNaturalQuery`. -/
inductive QueryRoute where
  | banking
  | risk
  | comparison (found : List String)
  | sectorPerformance (sector : String)
  | priceTrend
  | fallback
  deriving DecidableEq

/-- The routing part of `analyzeNaturalQuery` (`ENHANCED_FEATURES.md`
lines 368-460): lower-case the query and run the fixed ordered list of
pattern tests; the comparison branch carries the extracted company texts. -/
def analyzeNaturalQuery (q : String) : QueryRoute :=
  let lq := jsToLower q
  if testTwoGroupPattern ["bank", "banking", "financial"]
      ["grow", "growth", "performance", "best", "worst"] true lq then
    QueryRoute.banking
  else if testWordPattern ["risk", "risky", "governance", "red flag"] lq then
    QueryRoute.risk
  else if testWordPattern ["compare", "vs", "versus", "against"] lq then
    QueryRoute.comparison (extractCompanies lq)
  else if testTwoGroupPattern ["sector", "industry"]
      ["performance", "trend", "growth"] false lq then
    QueryRoute.sectorPerformance (extractSector lq)
  else if testWordPattern ["price", "trend", "forecast", "prediction"] lq then
    QueryRoute.priceTrend
  else
    QueryRoute.fallback

/-- Outcome of the comparison branch after extraction. -/
inductive ComparisonOutcome where
  | delegate (symbols : List String)
  | errorResult (error suggestion : String)
  deriving DecidableEq

/-- The suggestion string of the error result of the comparison branch. -/
def comparisonSuggestion : String :=
  "Try: \"Compare Santander vs BBVA\" or use company symbols like SAN.MC vs BBVA.MC"

/-- The comparison branch proceeds to `compareCompanies` with at least two
extracted companies and otherwise returns an error result with a suggestion
(`ENHANCED_FEATURES.md` lines 433-441); no exception is thrown either way. -/
def comparisonOutcome (found : List String) : ComparisonOutcome :=
  if 2 ≤ found.length then ComparisonOutcome.delegate found
  else ComparisonOutcome.errorResult "Could not identify companies to compare"
    comparisonSuggestion

/-- Counterexample to claim C2 as stated: the query "Compare Santander vs
BBVA" is classified as a comparison, but the extracted company list is the
uppercased matched text ["SANTANDER", "BBVA"], not the aliases
["SAN", "BBVA"]. -/
theorem C2_counterexample :
    analyzeNaturalQuery "Compare Santander vs BBVA" =
      QueryRoute.comparison ["SANTANDER", "BBVA"] ∧
    QueryRoute.comparison ["SANTANDER", "BBVA"] ≠
      QueryRoute.comparison ["SAN", "BBVA"] := by
  constructor
  · decide
  · decide

/-- Claim C2 (amended): "Compare Santander vs BBVA" is classified as a
comparison query, resolves to the uppercased matched substrings
["SANTANDER", "BBVA"] and, having at least 2 matches, delegates to the
company-comparison operation; "compare foo vs bar" matches no company
pattern and produces an error result carrying a suggested correction rather
than throwing an exception. -/
theorem C2_query_routing :
    analyzeNaturalQuery "Compare Santander vs BBVA" =
      QueryRoute.comparison ["SANTANDER", "BBVA"] ∧
    comparisonOutcome ["SANTANDER", "BBVA"] =
      ComparisonOutcome.delegate ["SANTANDER", "BBVA"] ∧
    analyzeNaturalQuery "compare foo vs bar" = QueryRoute.comparison [] ∧
    comparisonOutcome [] =
      ComparisonOutcome.errorResult "Could not identify companies to compare"
        comparisonSuggestion := by
  refine ⟨by decide, by decide, by decide, by decide⟩
